import Mathlib

/-!
Verification of the dispatch engine of the Logistics-Distribution-Route-Optimization-System
repository: a shallow embedding of `backend/optimization.py` (the CVRP genetic algorithm)
and the relevant parts of `backend/celery_worker.py` (the dispatch task), together with
theorems settling the frozen claims about the natural-language specification.

Conventions of the embedding:
 - Python floats (coordinates, demands, capacities, distances) are modelled as
   integers: the code only adds, subtracts and order-compares them, so any
   linear ordered commutative ring is a faithful carrier; `float('inf')` is `⊤`
   in `WithTop ℤ` (written `ZInf` below), whose addition and order agree with
   IEEE semantics on the operations used (`inf + x = inf`, `x < inf` iff `x`
   finite).
 - The random number generator is modelled by explicit streams of choices:
   each call of Python's `random.sample` consumes a list of raw naturals that
   drive a Fisher-Yates style selection (any outcome of the real sampler is
   realisable by a suitable stream, and vice versa), and each comparison
   `random.random() < rate` is modelled by the Boolean it evaluates to
   (both outcomes are realisable since the rates used are strictly between 0 and 1).
   `random.sample(pop, k)` raises `ValueError` when `k > len(pop)`; this is the
   `Except.error` branch of `sampleRange`.
 - Dictionaries keyed by id pairs are association lists; `dict.get(key, default)`
   is `distGet` (lookup with default `⊤`, mirroring `float('inf')`).
-/

/-- `WithTop ℤ`: the numeric type extended with `float('inf')`. -/
abbrev ZInf := WithTop ℤ

/-- `class Location(BaseModel)` of `optimization.py`: id, coordinates and demand. -/
structure Location where
  id : Nat
  x : ℤ
  y : ℤ
  demand : ℤ
deriving DecidableEq

/-- A junk default `Location` (used only for `getD` lookups that are
    always in range at call sites). -/
def dfltLoc : Location := ⟨0, 0, 0, 0⟩

instance : Inhabited Location := ⟨dfltLoc⟩

/-- A chromosome's genes: a list of customer `Location`s
    (`Chromosome.genes` in `optimization.py`; fitness and routes are derived
    deterministically from the genes, so they are recomputed on demand). -/
abbrev Chrom := List Location

/-- `self.distance_matrix`: a dictionary keyed by `(from_id, to_id)`.
    Later writes shadow earlier ones, so entries are pushed to the front
    and `List.lookup` finds the most recent write. -/
abbrev DistMatrix := List ((Nat × Nat) × ZInf)

/-- `self.distance_matrix.get((from_id, to_id), float('inf'))` of
    `calculate_fitness` (optimization.py lines 195 and 198): lookup with
    default infinity. -/
def distGet (m : DistMatrix) (p : Nat × Nat) : ZInf :=
  (m.lookup p).getD ⊤

/-- `float('inf') if distance is None else distance`
    (optimization.py line 93). -/
def optDist : Option ℤ → ZInf
  | none => ⊤
  | some q => (q : ZInf)

/-- `_precompute_distance_matrix` (optimization.py lines 89-93): for every
    ordered pair of locations, store the oracle's distance under the key
    `(from_loc.id, to_loc.id)`.  Python dict assignment lets the last write
    win; consing each write to the front gives `List.lookup` the same
    semantics.  `distances[i][j]` is in range whenever the oracle returned a
    full matrix; out-of-range reads default to `none` (= infinity). -/
def buildMatrix (locs : List Location) (dists : List (List (Option ℤ))) : DistMatrix :=
  locs.enum.foldl (fun acc fl =>
    locs.enum.foldl (fun acc2 tl =>
      ((fl.2.id, tl.2.id), optDist ((dists.getD fl.1 []).getD tl.1 none)) :: acc2) acc) []

/-- The route-splitting loop of `calculate_fitness` (optimization.py lines
    169-184): scan the genes, flushing the current route whenever adding the
    next gene would exceed the capacity; the final route is kept only when it
    contains more than the depot. `cur` is `current_route` (always of the form
    `depot :: …`), `d` is `current_demand`. -/
def splitGo (depot : Location) (cap : ℤ) : List Location → List Location → ℤ → List (List Location)
  | [], cur, _ => if 1 < cur.length then [cur] else []
  | g :: gs, cur, d =>
    if cap < d + g.demand then
      cur :: splitGo depot cap gs [depot, g] g.demand
    else
      splitGo depot cap gs (cur ++ [g]) (d + g.demand)

/-- Decode a chromosome's genes into sub-routes (`current_route = [self.depot]`,
    `current_demand = 0` initialisation of optimization.py lines 170-171). -/
def splitRoutes (depot : Location) (cap : ℤ) (genes : List Location) : List (List Location) :=
  splitGo depot cap genes [depot] 0

/-- `for i in range(len(route) - 1): … distance_matrix.get((route[i].id, route[i+1].id), inf)`
    (optimization.py lines 192-195): sum of the consecutive-leg distances. -/
def legsSum (m : DistMatrix) : List Location → ZInf
  | a :: b :: rest => distGet m (a.id, b.id) + legsSum m (b :: rest)
  | _ => 0

/-- Distance of one sub-route including the closing leg
    `distance_matrix.get((route[-1].id, depot.id), inf)` (optimization.py line 198).
    Routes produced by the split are never empty (they start with the depot);
    on the unreachable empty route the closing leg contributes `0`. -/
def routeDistance (m : DistMatrix) (depotId : Nat) (route : List Location) : ZInf :=
  legsSum m route +
    (match route.getLast? with
     | some l => distGet m (l.id, depotId)
     | none => 0)

/-- `route_demand = sum(loc.demand for loc in route)` (optimization.py line 189). -/
def routeDemand (route : List Location) : ℤ :=
  (route.map (fun l => l.demand)).sum

/-- `if route_demand > capacity: violation += route_demand - capacity`
    (optimization.py lines 203-204), as the per-route contribution. -/
def routeViolation (cap : ℤ) (route : List Location) : ℤ :=
  if cap < routeDemand route then routeDemand route - cap else 0

/-- The derived per-chromosome quantities computed by `calculate_fitness`. -/
structure FitResult where
  routes : List (List Location)
  total_distance : ZInf
  capacity_violation : ℤ
  fitness : ZInf
deriving DecidableEq

/-- `calculate_fitness` (optimization.py lines 157-207) for one chromosome:
    split the genes into routes, sum distances (with the closing legs) and
    capacity violations, and set
    `fitness = total_distance + capacity_violation * 1000`
    (`CAPACITY_PENALTY = 1000`, line 162). -/
def evalChromosome (m : DistMatrix) (depot : Location) (cap : ℤ) (genes : Chrom) : FitResult :=
  let routes := splitRoutes depot cap genes
  let td := (routes.map (routeDistance m depot.id)).sum
  let cv := (routes.map (routeViolation cap)).sum
  { routes := routes
    total_distance := td
    capacity_violation := cv
    fitness := td + ((cv * 1000 : ℤ) : ZInf) }

/-- The `GeneticAlgorithm` instance data (constructor of optimization.py lines
    46-67): `self.depot = locations[0]`, `self.customers = locations[1:]`,
    capacity, population size, generation limit and patience, together with the
    pre-computed distance matrix (the oracle's answer is taken as input; the
    mutation/crossover rates enter only through the Boolean coin draws of the
    modelled RNG streams). -/
structure GAInst where
  depot : Location
  customers : List Location
  vehicle_capacity : ℤ
  population_size : Nat
  generations : Nat
  patience : Nat
  distance_matrix : DistMatrix

/-- The fitness of one chromosome in a GA instance (deterministic in the genes). -/
def chromFitness (inst : GAInst) (genes : Chrom) : ZInf :=
  (evalChromosome inst.distance_matrix inst.depot inst.vehicle_capacity genes).fitness

/-- Minimum fitness over a population (`⊤` for the empty population). -/
def minFitness (f : Chrom → ZInf) (pop : List Chrom) : ZInf :=
  (pop.map f).foldr min ⊤

/-- The scan of Python's `min(iterable, key=f)`: keep the first element whose
    key is strictly below the best so far. -/
def pyMinByGo (f : Chrom → ZInf) (best : Chrom) : List Chrom → Chrom
  | [] => best
  | x :: xs => pyMinByGo f (if f x < f best then x else best) xs

/-- Python's `min(l, key=f)`: `none` on the empty list (where Python raises
    `ValueError`), otherwise the first element attaining the minimal key. -/
def pyMinBy (f : Chrom → ZInf) : List Chrom → Option Chrom
  | [] => none
  | x :: xs => some (pyMinByGo f x xs)

/-- The index-picking core of Python's `random.sample`: draw `k` distinct
    elements of `avail` without replacement, the stream `seed` choosing each
    position.  Every outcome of the real sampler corresponds to some stream and
    conversely.  (`avail` is duplicate-free at every call site, so removing the
    chosen value removes exactly the chosen position.) -/
def pickIdx : Nat → List Nat → List Nat → List Nat
  | 0, _, _ => []
  | k + 1, avail, seed =>
    let x := avail.getD (seed.headD 0 % avail.length) 0
    x :: pickIdx k (avail.erase x) seed.tail

/-- Python's `random.sample(range(n), k)`: raises
    `ValueError: Sample larger than population or is negative` when `k > n`
    (this is what `ordered_crossover` hits on a permutation of size 1),
    otherwise returns `k` distinct members of `range n`. -/
def sampleRange (n k : Nat) (seed : List Nat) : Except String (List Nat) :=
  if k > n then .error "Sample larger than population or is negative"
  else .ok (pickIdx k (List.range n) seed)

/-- `random.sample(self.customers, len(self.customers))` of
    `initialize_population` (optimization.py line 215): a random permutation,
    realised by sampling a permutation of the index range and reading the list
    through it. -/
def samplePerm (l : List Location) (seed : List Nat) : List Location :=
  (pickIdx l.length (List.range l.length) seed).map (fun i => l.getD i dfltLoc)

/-- `initialize_population` (optimization.py lines 209-216): `population_size`
    independent random shuffles of the customers. -/
def initPopulation (inst : GAInst) (seeds : List (List Nat)) : List Chrom :=
  (List.range inst.population_size).map (fun j => samplePerm inst.customers (seeds.getD j []))

/-- `genes[idx1], genes[idx2] = genes[idx2], genes[idx1]` (optimization.py
    line 290): both old values are read before either position is written. -/
def swapAt (l : List Location) (i j : Nat) : List Location :=
  (l.set i (l.getD j dfltLoc)).set j (l.getD i dfltLoc)

/-- `mutate` (optimization.py lines 285-290).  The outer coin
    (`random.random() < self.mutation_rate`) is `r.isSome`; when it fires and
    the chromosome has at least two genes, two distinct indices are sampled and
    swapped.  No randomness is consumed and nothing changes otherwise. -/
def mutate (genes : Chrom) (r : Option (List Nat)) : Chrom :=
  match r with
  | none => genes
  | some seed =>
    if 2 ≤ genes.length then
      let idxs := pickIdx 2 (List.range genes.length) seed
      swapAt genes (idxs.getD 0 0) (idxs.getD 1 0)
    else genes

/-- `child1 = [None]*size; child1[start:end] = parent1[start:end]` of
    `ordered_crossover` (optimization.py lines 260-266): the partial child with
    the copied slice in positions `[s, e)` and `None` elsewhere. -/
def oxTemplate (pa : Chrom) (s e : Nat) : List (Option Location) :=
  List.replicate s none ++ ((pa.drop s).take (e - s)).map some ++
    List.replicate (pa.length - e) none

/-- The fill loop of `ordered_crossover` (optimization.py lines 274-281):
    write the pool into the `None` positions in order.  Python raises
    `IndexError` when the pool is exhausted (`p1_genes[p1_idx]`); that is the
    `none` result.  Pool elements beyond the number of `None` positions are
    simply unused, as in the source. -/
def fillNones : List (Option Location) → List Location → Option (List Location)
  | [], _ => some []
  | some g :: rest, pool => (fillNones rest pool).map (fun r => g :: r)
  | none :: rest, p :: pool => (fillNones rest pool).map (fun r => p :: r)
  | none :: _, [] => none

/-- One child of `ordered_crossover`: copy `pa[s:e)` in place, then fill the
    remaining positions with the genes of `pb` not already present
    (`p1_genes = [gene for gene in parent2 if gene not in child1]`,
    optimization.py line 270; membership in the partial child is membership in
    the copied slice, since no gene equals `None`). -/
def oxChild (pa pb : Chrom) (s e : Nat) : Option Chrom :=
  let seg := (pa.drop s).take (e - s)
  fillNones (oxTemplate pa s e) (pb.filter (fun g => decide (g ∉ seg)))

/-- `ordered_crossover` (optimization.py lines 257-283):
    `start, end = sorted(random.sample(range(size), 2))`, then both children by
    the symmetric slice-and-fill construction.  The `sample` call raises when
    `size < 2`; an exhausted fill pool raises `IndexError`. -/
def orderedCrossover (pa pb : Chrom) (seed : List Nat) : Except String (Chrom × Chrom) := do
  let idxs ← sampleRange pa.length 2 seed
  let s := min (idxs.getD 0 0) (idxs.getD 1 0)
  let e := max (idxs.getD 0 0) (idxs.getD 1 0)
  match oxChild pa pb s e, oxChild pb pa s e with
  | some c1, some c2 => .ok (c1, c2)
  | _, _ => .error "list index out of range"

/-- The randomness consumed by one iteration of the pair loop of
    `crossover_and_mutate`: the crossover coin (`random.random() <
    self.crossover_rate`), the seed of its `sample` call, and the two mutation
    draws (`none` = the mutation coin did not fire). -/
structure PairRand where
  doCross : Bool
  crossSeed : List Nat
  mut1 : Option (List Nat)
  mut2 : Option (List Nat)
deriving DecidableEq

instance : Inhabited PairRand := ⟨⟨false, [], none, none⟩⟩

/-- `crossover_and_mutate` (optimization.py lines 231-255).  The source walks
    `parents` by index in steps of two over `range(0, population_size, 2)`
    with `parents` of length exactly `population_size` (it is the output of
    `selection`); consuming the parent list two at a time is the same walk.
    A trailing singleton pairs with itself (`p2 = p1`).  Children are fresh
    lists (crossover output or `genes[:]` copies), each then mutated. -/
def pairChildren (p1 p2 : Chrom) (pr : PairRand) : Except String (Chrom × Chrom) :=
  if pr.doCross then orderedCrossover p1 p2 pr.crossSeed else .ok (p1, p2)

/-- The pair loop of `crossover_and_mutate`; see `pairChildren` for one
    iteration's crossover-or-clone choice. -/
def camGo : List PairRand → List Chrom → Except String (List Chrom)
  | _, [] => .ok []
  | prs, [p1] => do
    let pr := prs.headD default
    let cs ← pairChildren p1 p1 pr
    .ok [mutate cs.1 pr.mut1, mutate cs.2 pr.mut2]
  | prs, p1 :: p2 :: rest => do
    let pr := prs.headD default
    let cs ← pairChildren p1 p2 pr
    let tail ← camGo prs.tail rest
    .ok (mutate cs.1 pr.mut1 :: mutate cs.2 pr.mut2 :: tail)

/-- One tournament of `selection` (optimization.py lines 218-229):
    `random.sample(self.population, tournament_size)` with `tournament_size = 5`
    (the default, never overridden), then Python's `min` by fitness.  Sampling
    chromosome objects without replacement is sampling positions without
    replacement. -/
def tournamentPick (inst : GAInst) (pop : List Chrom) (seed : List Nat) : Except String Chrom := do
  let idxs ← sampleRange pop.length 5 seed
  match pyMinBy (chromFitness inst) (idxs.map (fun i => pop.getD i [])) with
  | some w => .ok w
  | none => .error "min() arg is an empty sequence"

/-- The selection loop: `population_size` tournaments, appended in order. -/
def selGo (inst : GAInst) (pop : List Chrom) (seeds : List (List Nat)) :
    Nat → Except String (List Chrom)
  | 0 => .ok []
  | k + 1 => do
    let w ← tournamentPick inst pop (seeds.headD [])
    let rest ← selGo inst pop seeds.tail k
    .ok (w :: rest)

/-- `selection` (optimization.py lines 218-229). -/
def selection (inst : GAInst) (pop : List Chrom) (seeds : List (List Nat)) :
    Except String (List Chrom) :=
  selGo inst pop seeds inst.population_size

/-- The randomness consumed by one generation of the main loop. -/
structure GenRand where
  selSeeds : List (List Nat)
  pairRand : List PairRand
deriving DecidableEq

instance : Inhabited GenRand := ⟨⟨[], []⟩⟩

/-- One iteration of the main loop of `run` (optimization.py lines 112-124):
    selection, crossover & mutation, then the elitist replacement
    `self.population = [best_of_last_gen] + offspring_population[:population_size - 1]`
    with `best_of_last_gen = min(self.population, key=fitness)` (Python's `min`
    raises on an empty population).  `calculate_fitness` on the new population
    recomputes each fitness from the (unchanged) genes, which `chromFitness`
    does on demand. -/
def gaStep (inst : GAInst) (pop : List Chrom) (gr : GenRand) : Except String (List Chrom) := do
  let parents ← selection inst pop gr.selSeeds
  let offspring ← camGo gr.pairRand parents
  match pyMinBy (chromFitness inst) pop with
  | some best => .ok (best :: offspring.take (inst.population_size - 1))
  | none => .error "min() arg is an empty sequence"

/-- The main loop of `run` (optimization.py lines 109-139), returning the
    population after each executed generation and whether the loop broke
    early.  Tracks `best_fitness_so_far` and the stagnation counter exactly as
    the source: the compared value is `self.population[0].fitness`, the
    generation is counted, and the loop breaks as soon as the counter reaches
    `patience`. -/
def gaLoop (inst : GAInst) :
    Nat → List Chrom → ZInf → Nat → List GenRand →
    Except String (List (List Chrom) × Bool)
  | 0, _, _, _, _ => .ok ([], false)
  | fuel + 1, pop, bestSoFar, cnt, grs => do
    let newPop ← gaStep inst pop (grs.headD default)
    let f0 := chromFitness inst (newPop.headD [])
    let best' := if f0 < bestSoFar then f0 else bestSoFar
    let cnt' := if f0 < bestSoFar then 0 else cnt + 1
    if inst.patience ≤ cnt' then
      .ok ([newPop], true)
    else do
      let t ← gaLoop inst fuel newPop best' cnt' grs.tail
      .ok (newPop :: t.1, t.2)

/-- `run` (optimization.py lines 96-141) up to the early-stop bookkeeping:
    initial population, then the generation loop with
    `best_fitness_so_far = float('inf')` and a zero stagnation counter.
    (The distance matrix is the oracle response taken as input; the final
    polyline fetch for the best chromosome involves no further optimisation.) -/
def gaRun (inst : GAInst) (initSeeds : List (List Nat)) (grs : List GenRand) :
    Except String (List (List Chrom) × Bool) :=
  gaLoop inst inst.generations (initPopulation inst initSeeds) ⊤ 0 grs

/-- `models.Vehicle` as used by the dispatch task: id and capacity. -/
structure Vehicle where
  id : Nat
  capacity : ℤ
deriving DecidableEq

/-- `models.Order` as used by the dispatch task: id, customer location, demand. -/
structure Order where
  id : Nat
  customer : Location
  demand : ℤ
deriving DecidableEq

/-- Outcome of the guard prefix of `run_dispatch_task`:
    `failure` is the `except` branch returning `{'status': 'FAILURE', 'error': …}`,
    `complete n` is `{'status': 'COMPLETE', 'result': {'total_tasks_created': n, …}}`,
    and `proceed k` marks falling through to clustering with `num_clusters = k`. -/
inductive DispatchOutcome where
  | failure (error : String) : DispatchOutcome
  | complete (total_tasks_created : Nat) : DispatchOutcome
  | proceed (num_clusters : Nat) : DispatchOutcome
deriving DecidableEq

/-- The guard prefix of `run_dispatch_task` (celery_worker.py lines 29-37),
    taking the lists fetched from the database as input:
    `if not vehicles or not orders or not depot: raise Exception(...)` —
    the raise is caught by the task's `except` clause, which reports FAILURE —
    then `num_clusters = min(len(vehicles), len(orders))` and the
    `num_clusters == 0` early return. -/
def dispatchGuard (vehicles : List Vehicle) (orders : List Order) (depot : Option Location) :
    DispatchOutcome :=
  if vehicles.isEmpty || orders.isEmpty || depot.isNone then
    .failure "Invalid data: Vehicles, orders, or depot not found."
  else
    let numClusters := min vehicles.length orders.length
    if numClusters = 0 then .complete 0
    else .proceed numClusters

/-- The stop-writing loop of `run_dispatch_task` (celery_worker.py lines
    85-90) over the flattened routes (the nested `for route … for loc` visits
    exactly the concatenation): skip any location whose id equals the depot's,
    otherwise record `(customer_id, stop_order)` and advance the counter. -/
def writeStops (depotId : Nat) : Nat → List Location → List (Nat × Nat)
  | _, [] => []
  | counter, l :: ls =>
    if l.id = depotId then writeStops depotId counter ls
    else (l.id, counter) :: writeStops depotId (counter + 1) ls

/-- All `TaskStop` rows written for one task: counter starts at 1 and runs
    across all sub-routes (celery_worker.py line 85). -/
def taskStops (depotId : Nat) (routes : List (List Location)) : List (Nat × Nat) :=
  writeStops depotId 1 routes.flatten

/-- Modelled from the spec (section 4.2 / section 7 of spec.md): the loud
    lookup the specification demands for the distance matrix cache, failing
    with an `InternalError` on an unknown id pair.  Used only to state the
    divergence of claim C2; the source's lookup is `distGet`. -/
def specDistLookup (m : DistMatrix) (p : Nat × Nat) : Except String ZInf :=
  match m.lookup p with
  | some d => .ok d
  | none => .error "InternalError: distance matrix cache miss"

/-- The fitness the early-stop check of `run` actually reads:
    `current_best_chromosome = self.population[0]` (optimization.py line 127),
    i.e. the fitness of the chromosome at position 0 of the new population. -/
def headFit (inst : GAInst) (pop : List Chrom) : ZInf :=
  chromFitness inst (pop.headD [])

/-- The stagnation recurrence of the early-stop bookkeeping, run over a
    sequence of per-generation compared fitness values: an improving value
    resets the counter and the running best, a non-improving one increments
    the counter; the result is the 1-based index of the generation at which
    the counter first reaches `patience` (`none` if it never does).  Which
    fitness sequence is fed in is exactly what claim C3 is about. -/
def stopIndex (patience : Nat) : ZInf → Nat → List ZInf → Option Nat
  | _, _, [] => none
  | best, cnt, e :: es =>
    let best' := if e < best then e else best
    let cnt' := if e < best then 0 else cnt + 1
    if patience ≤ cnt' then some 1
    else (stopIndex patience best' cnt' es).map (fun n => n + 1)

/-- Concrete depot for the concrete instances below. -/
def locD : Location := ⟨0, 0, 0, 0⟩

/-- Concrete customer `A` (id 1, demand 1). -/
def locA : Location := ⟨1, 1, 0, 1⟩

/-- Concrete customer `B` (id 2, demand 1). -/
def locB : Location := ⟨2, 0, 1, 1⟩

/-- A customer whose demand (20) exceeds the capacity (10) of the concrete
    instances: used for the degenerate-split and infinite-distance examples. -/
def locBig : Location := ⟨3, 5, 5, 20⟩

/-- A concrete asymmetric distance matrix over ids 0 (depot), 1, 2 making the
    tour `[A, B]` (cost 3) much cheaper than `[B, A]` (cost 30). -/
def mC : DistMatrix :=
  [((0, 0), 0), ((0, 1), 1), ((1, 2), 1), ((2, 0), 1),
   ((0, 2), 10), ((2, 1), 10), ((1, 0), 10), ((1, 1), 0), ((2, 2), 0)]

/-- A concrete GA instance: depot `locD`, customers `[locA, locB]`,
    capacity 10, population 5, generation limit 10, patience 1. -/
def instC : GAInst :=
  { depot := locD
    customers := [locA, locB]
    vehicle_capacity := 10
    population_size := 5
    generations := 10
    patience := 1
    distance_matrix := mC }

/-- Initial-shuffle seeds making every initial chromosome `[locB, locA]`. -/
def initSeedsC : List (List Nat) := List.replicate 5 [1]

/-- Generation-1 randomness: trivial tournament seeds, no crossover, and one
    mutation on the first offspring swapping its two genes (turning `[B, A]`
    into the strictly better `[A, B]`). -/
def grMut : GenRand :=
  { selSeeds := List.replicate 5 []
    pairRand := [⟨false, [], some [0], none⟩, default, default] }

/-- A generation consuming only trivial randomness: clones, no mutation. -/
def grQuiet : GenRand :=
  { selSeeds := List.replicate 5 []
    pairRand := List.replicate 3 default }

/-- The randomness stream of the concrete run: one improving mutation in
    generation 1, then quiet generations. -/
def grsC : List GenRand := [grMut, grQuiet, grQuiet]

/-- The concrete run's trace (extracted from the run itself so that equations
    about it hold by evaluation). -/
def runC : List (List Chrom) × Bool :=
  (gaRun instC initSeedsC grsC).toOption.getD ([], false)

/-- The elitism property (claim C6) as a predicate on a run's trace: along
    the initial population followed by the populations of the executed
    generations, the population minimum fitness never increases. -/
def minChain (inst : GAInst) (pop0 : List Chrom) (pops : List (List Chrom)) : Prop :=
  List.Chain'
    (fun p q => minFitness (chromFitness inst) q ≤ minFitness (chromFitness inst) p)
    (pop0 :: pops)

/-- The early-stop behaviour (claim C3, amended) as a predicate on a run's
    trace: the loop broke early exactly when the stagnation recurrence over
    the fitness of each generation's population head — the elite, i.e. the
    minimum of the PREVIOUS generation's population — reaches `patience`, and
    it broke at exactly that generation; moreover each generation's position-0
    chromosome is the previous population's first minimum. -/
def stopBehaviour (inst : GAInst) (pop0 : List Chrom) (pops : List (List Chrom))
    (early : Bool) : Prop :=
  ((early = true ∧
      stopIndex inst.patience ⊤ 0 (pops.map (headFit inst)) = some pops.length) ∨
   (early = false ∧
      stopIndex inst.patience ⊤ 0 (pops.map (headFit inst)) = none ∧
      pops.length = inst.generations)) ∧
  List.Chain' (fun p q => q.headD [] = (pyMinBy (chromFitness inst) p).getD [])
    (pop0 :: pops)

/-- The permutation invariant (claim C7) as a predicate on a list of
    populations: every chromosome is a permutation of the customers and never
    contains the depot. -/
def permInvariant (inst : GAInst) (pops : List (List Chrom)) : Prop :=
  ∀ p ∈ pops, ∀ g ∈ p, g.Perm inst.customers ∧ inst.depot ∉ g

/-- The population-size invariant (claim C10) as a predicate on a list of
    populations. -/
def sizeInvariant (inst : GAInst) (pops : List (List Chrom)) : Prop :=
  ∀ p ∈ pops, p.length = inst.population_size

/-! ### Helper lemmas: Python `min`, sampling, swapping -/

theorem foldr_min_min (a b : ZInf) (l : List ZInf) :
    l.foldr min (min a b) = min a (l.foldr min b) := by
  induction l with
  | nil => rfl
  | cons c cs ih => simp only [List.foldr_cons, ih, min_left_comm]

theorem pyMinByGo_fit (f : Chrom → ZInf) (b : Chrom) (l : List Chrom) :
    f (pyMinByGo f b l) = (l.map f).foldr min (f b) := by
  induction l generalizing b with
  | nil => rfl
  | cons x xs ih =>
    simp only [pyMinByGo, List.map_cons, List.foldr_cons]
    rw [ih]
    have h : f (if f x < f b then x else b) = min (f x) (f b) := by
      split_ifs with h
      · exact (min_eq_left h.le).symm
      · exact (min_eq_right (le_of_not_lt h)).symm
    rw [h, foldr_min_min]

theorem pyMinBy_some_fit (f : Chrom → ZInf) (pop : List Chrom) (w : Chrom)
    (h : pyMinBy f pop = some w) : f w = minFitness f pop := by
  cases pop with
  | nil => simp [pyMinBy] at h
  | cons x xs =>
    simp only [pyMinBy, Option.some.injEq] at h
    subst h
    rw [pyMinByGo_fit f x xs, minFitness, List.map_cons, List.foldr_cons]
    have : f x = min (f x) ⊤ := (min_eq_left le_top).symm
    conv_lhs => rw [this]
    rw [foldr_min_min]

theorem pyMinByGo_mem (f : Chrom → ZInf) (b : Chrom) (l : List Chrom) :
    pyMinByGo f b l = b ∨ pyMinByGo f b l ∈ l := by
  induction l generalizing b with
  | nil => exact Or.inl rfl
  | cons x xs ih =>
    simp only [pyMinByGo]
    rcases ih (if f x < f b then x else b) with h | h
    · rw [h]
      split_ifs
      · exact Or.inr (List.mem_cons_self _ _)
      · exact Or.inl rfl
    · exact Or.inr (List.mem_cons_of_mem _ h)

theorem pyMinBy_mem (f : Chrom → ZInf) (pop : List Chrom) (w : Chrom)
    (h : pyMinBy f pop = some w) : w ∈ pop := by
  cases pop with
  | nil => simp [pyMinBy] at h
  | cons x xs =>
    simp only [pyMinBy, Option.some.injEq] at h
    subst h
    rcases pyMinByGo_mem f x xs with h | h
    · rw [h]; exact List.mem_cons_self _ _
    · exact List.mem_cons_of_mem _ h

theorem minFitness_cons (f : Chrom → ZInf) (x : Chrom) (xs : List Chrom) :
    minFitness f (x :: xs) = min (f x) (minFitness f xs) := rfl

theorem pickIdx_spec (k : Nat) :
    ∀ (avail seed : List Nat), k ≤ avail.length → avail.Nodup →
      (pickIdx k avail seed).length = k ∧ (pickIdx k avail seed).Nodup ∧
        ∀ x ∈ pickIdx k avail seed, x ∈ avail := by
  induction k with
  | zero => intro avail seed _ _; exact ⟨rfl, List.nodup_nil, by simp [pickIdx]⟩
  | succ k ih =>
    intro avail seed hk hnd
    have hpos : 0 < avail.length := Nat.lt_of_lt_of_le (Nat.succ_pos k) hk
    have hi : seed.headD 0 % avail.length < avail.length := Nat.mod_lt _ hpos
    set x0 := avail.getD (seed.headD 0 % avail.length) 0 with hx0
    have hmem : x0 ∈ avail := by
      rw [hx0, List.getD_eq_getElem avail 0 hi]
      exact List.getElem_mem hi
    have hlen : (avail.erase x0).length = avail.length - 1 :=
      List.length_erase_of_mem hmem
    have hk' : k ≤ (avail.erase x0).length := by omega
    have hnd' : (avail.erase x0).Nodup := hnd.erase x0
    obtain ⟨ih1, ih2, ih3⟩ := ih (avail.erase x0) seed.tail hk' hnd'
    have hrec : pickIdx (k + 1) avail seed = x0 :: pickIdx k (avail.erase x0) seed.tail := rfl
    rw [hrec]
    refine ⟨by simp only [List.length_cons, ih1], ?_, ?_⟩
    · refine List.nodup_cons.2 ⟨fun hx => ?_, ih2⟩
      have := ih3 _ hx
      exact ((hnd.mem_erase_iff).1 this).1 rfl
    · intro x hx
      rcases List.mem_cons.1 hx with h | h
      · rw [h]; exact hmem
      · exact List.erase_subset _ _ (ih3 _ h)

theorem sampleRange_ok (n k : Nat) (seed l : List Nat)
    (h : sampleRange n k seed = .ok l) :
    k ≤ n ∧ l.length = k ∧ l.Nodup ∧ ∀ x ∈ l, x < n := by
  unfold sampleRange at h
  by_cases hgt : k > n
  · rw [if_pos hgt] at h
    exact absurd h (by simp)
  · rw [if_neg hgt] at h
    have hk : k ≤ n := Nat.le_of_not_lt hgt
    obtain ⟨h1, h2, h3⟩ :=
      pickIdx_spec k (List.range n) seed (by simpa using hk) (List.nodup_range n)
    simp only [Except.ok.injEq] at h
    subst h
    exact ⟨hk, h1, h2, fun x hx => List.mem_range.1 (h3 x hx)⟩

theorem getD_mem {α : Type} [Inhabited α] (l : List α) (n : Nat) (d : α)
    (h : n < l.length) : l.getD n d ∈ l := by
  rw [List.getD_eq_getElem l d h]
  exact List.getElem_mem h

theorem map_getD_range (l : List Location) :
    (List.range l.length).map (fun i => l.getD i dfltLoc) = l := by
  induction l with
  | nil => rfl
  | cons a as ih =>
    rw [List.length_cons, List.range_succ_eq_map, List.map_cons, List.map_map]
    simp only [List.getD_cons_zero, Function.comp_def, Nat.succ_eq_add_one,
      List.getD_cons_succ]
    rw [ih]

theorem samplePerm_perm (l : List Location) (seed : List Nat) :
    (samplePerm l seed).Perm l := by
  unfold samplePerm
  obtain ⟨h1, h2, h3⟩ :=
    pickIdx_spec l.length (List.range l.length) seed (by simp) (List.nodup_range l.length)
  have hsub : pickIdx l.length (List.range l.length) seed ⊆ List.range l.length :=
    fun x hx => h3 x hx
  have hperm : (pickIdx l.length (List.range l.length) seed).Perm (List.range l.length) :=
    (h2.subperm hsub).perm_of_length_le (by simp [h1])
  have hmap := hperm.map (fun i => l.getD i dfltLoc)
  rw [map_getD_range l] at hmap
  exact hmap

theorem initPopulation_perm (inst : GAInst) (seeds : List (List Nat)) :
    ∀ g ∈ initPopulation inst seeds, g.Perm inst.customers := by
  intro g hg
  obtain ⟨j, _, rfl⟩ := List.mem_map.1 hg
  exact samplePerm_perm _ _

theorem initPopulation_length (inst : GAInst) (seeds : List (List Nat)) :
    (initPopulation inst seeds).length = inst.population_size := by
  simp [initPopulation]

theorem getD_cons_set_perm (xs : List Location) :
    ∀ (k : Nat) (x : Location), k < xs.length →
      ((xs.getD k dfltLoc) :: xs.set k x).Perm (x :: xs) := by
  induction xs with
  | nil => intro k x h; simp at h
  | cons y ys ih =>
    intro k x h
    cases k with
    | zero =>
      rw [List.getD_cons_zero, List.set_cons_zero]
      exact List.Perm.swap _ _ _
    | succ k =>
      rw [List.getD_cons_succ, List.set_cons_succ]
      have hk : k < ys.length := by simpa using h
      exact (List.Perm.swap y _ _).trans (((ih k x hk).cons y).trans (List.Perm.swap x y ys))

theorem swapAt_perm (l : List Location) :
    ∀ (i j : Nat), i < l.length → j < l.length → (swapAt l i j).Perm l := by
  induction l with
  | nil => intro i j hi; simp at hi
  | cons a as ih =>
    intro i j hi hj
    cases i with
    | zero =>
      cases j with
      | zero => simp [swapAt]
      | succ j =>
        have hj' : j < as.length := by simpa using hj
        unfold swapAt
        rw [List.getD_cons_succ, List.set_cons_zero, List.getD_cons_zero,
          List.set_cons_succ]
        exact getD_cons_set_perm as j a hj'
    | succ i =>
      cases j with
      | zero =>
        have hi' : i < as.length := by simpa using hi
        unfold swapAt
        rw [List.getD_cons_zero, List.set_cons_succ, List.getD_cons_succ,
          List.set_cons_zero]
        exact getD_cons_set_perm as i a hi'
      | succ j =>
        have hi' : i < as.length := by simpa using hi
        have hj' : j < as.length := by simpa using hj
        unfold swapAt
        rw [List.getD_cons_succ, List.set_cons_succ, List.getD_cons_succ,
          List.set_cons_succ]
        exact (ih i j hi' hj').cons a

theorem mutate_perm (genes : Chrom) (r : Option (List Nat)) :
    (mutate genes r).Perm genes := by
  unfold mutate
  cases r with
  | none => exact List.Perm.refl _
  | some seed =>
    split_ifs with h2
    · obtain ⟨hl, _, hb⟩ :=
        pickIdx_spec 2 (List.range genes.length) seed (by simpa using h2)
          (List.nodup_range genes.length)
      have hi : (pickIdx 2 (List.range genes.length) seed).getD 0 0 < genes.length := by
        have := hb _ (getD_mem _ 0 0 (by omega))
        exact List.mem_range.1 this
      have hj : (pickIdx 2 (List.range genes.length) seed).getD 1 0 < genes.length := by
        have := hb _ (getD_mem _ 1 0 (by omega))
        exact List.mem_range.1 this
      exact swapAt_perm genes _ _ hi hj
    · exact List.Perm.refl _

/-! ### Helper lemmas: ordered crossover preserves permutations -/

theorem filterMap_id_replicate_none (s : Nat) :
    (List.replicate s (none : Option Location)).filterMap id = [] := by
  induction s with
  | zero => rfl
  | succ s ih => simp [List.replicate_succ, List.filterMap_cons, ih]

theorem filterMap_id_map_some (l : List Location) : (l.map some).filterMap id = l := by
  rw [List.filterMap_map]
  have h : (id ∘ some : Location → Option Location) = some ∘ id := rfl
  rw [h, List.filterMap_eq_map, List.map_id]

theorem countP_isNone_replicate (s : Nat) :
    (List.replicate s (none : Option Location)).countP (fun o => o.isNone) = s := by
  induction s with
  | zero => rfl
  | succ s ih => simp [List.replicate_succ, List.countP_cons, ih]

theorem countP_isNone_map_some (l : List Location) :
    (l.map some).countP (fun o => o.isNone) = 0 := by
  rw [List.countP_eq_zero]
  intro a ha
  obtain ⟨b, _, rfl⟩ := List.mem_map.1 ha
  simp

theorem oxTemplate_filterMap (pa : Chrom) (s e : Nat) :
    (oxTemplate pa s e).filterMap id = (pa.drop s).take (e - s) := by
  unfold oxTemplate
  rw [List.filterMap_append, List.filterMap_append, filterMap_id_replicate_none,
    filterMap_id_map_some, filterMap_id_replicate_none]
  simp

theorem oxTemplate_countNone (pa : Chrom) (s e : Nat) :
    (oxTemplate pa s e).countP (fun o => o.isNone) = s + (pa.length - e) := by
  unfold oxTemplate
  rw [List.countP_append, List.countP_append, countP_isNone_replicate,
    countP_isNone_map_some, countP_isNone_replicate]
  omega

theorem fillNones_perm :
    ∀ (l : List (Option Location)) (pool r : List Location),
      fillNones l pool = some r →
      r.Perm (l.filterMap id ++ pool.take (l.countP (fun o => o.isNone))) := by
  intro l
  induction l with
  | nil =>
    intro pool r h
    simp only [fillNones, Option.some.injEq] at h
    subst h
    simp
  | cons o rest ih =>
    intro pool r h
    cases o with
    | some g =>
      simp only [fillNones] at h
      cases hr : fillNones rest pool with
      | none => rw [hr] at h; simp at h
      | some r' =>
        rw [hr] at h
        simp only [Option.map_some', Option.some.injEq] at h
        subst h
        have hperm := ih pool r' hr
        simp only [List.filterMap_cons, id, List.countP_cons, List.cons_append]
        simpa using hperm.cons g
    | none =>
      cases pool with
      | nil => simp [fillNones] at h
      | cons p pool' =>
        simp only [fillNones] at h
        cases hr : fillNones rest pool' with
        | none => rw [hr] at h; simp at h
        | some r' =>
          rw [hr] at h
          simp only [Option.map_some', Option.some.injEq] at h
          subst h
          have hperm := ih pool' r' hr
          have hcnt : (none :: rest).countP (fun o : Option Location => o.isNone) =
              rest.countP (fun o => o.isNone) + 1 := by
            simp [List.countP_cons]
          rw [hcnt, List.filterMap_cons]
          simp only [id, List.take_succ_cons]
          exact (hperm.cons p).trans List.perm_middle.symm

theorem filter_mem_of_sublist (l sub : List Location)
    (hnd : l.Nodup) (hsl : sub.Sublist l) :
    l.filter (fun a => decide (a ∈ sub)) = sub := by
  induction hsl with
  | slnil => rfl
  | @cons l₁ l₂ a hsl ih =>
    have hnda : a ∉ l₂ := (List.nodup_cons.1 hnd).1
    have hnd₂ : l₂.Nodup := (List.nodup_cons.1 hnd).2
    have hna : a ∉ l₁ := fun hx => hnda (hsl.subset hx)
    rw [List.filter_cons]
    simp only [hna, decide_False]
    exact ih hnd₂
  | @cons₂ l₁ l₂ a hsl ih =>
    have hnda : a ∉ l₂ := (List.nodup_cons.1 hnd).1
    have hnd₂ : l₂.Nodup := (List.nodup_cons.1 hnd).2
    have hcong : l₂.filter (fun x => decide (x ∈ a :: l₁)) =
        l₂.filter (fun x => decide (x ∈ l₁)) := by
      apply List.filter_congr
      intro x hx
      have hxa : x ≠ a := fun hxa => hnda (hxa ▸ hx)
      rw [decide_eq_decide]
      simp [List.mem_cons, hxa]
    have hhead : (a :: l₂).filter (fun x => decide (x ∈ a :: l₁)) =
        a :: l₂.filter (fun x => decide (x ∈ a :: l₁)) := by
      rw [List.filter_cons_of_pos]
      simp
    rw [hhead, hcong, ih hnd₂]

theorem oxChild_perm (pa pb : Chrom) (s e : Nat) (c : Chrom)
    (hnd : pa.Nodup) (hperm : pb.Perm pa) (hse : s ≤ e) (he : e ≤ pa.length)
    (h : oxChild pa pb s e = some c) : c.Perm pa := by
  unfold oxChild at h
  have hperm1 := fillNones_perm _ _ _ h
  rw [oxTemplate_filterMap, oxTemplate_countNone pa s e] at hperm1
  set seg := (pa.drop s).take (e - s) with hseg
  set pool := pb.filter (fun g => decide (g ∉ seg)) with hpool
  have hsegsub : seg.Sublist pa := (List.take_sublist _ _).trans (List.drop_sublist _ _)
  have hseglen : seg.length = e - s := by
    rw [hseg, List.length_take, List.length_drop]
    omega
  have hpoolperm : pool.Perm (pa.filter (fun g => decide (g ∉ seg))) := hperm.filter _
  have hsplit : (pa.filter (fun g => decide (g ∈ seg)) ++
      pa.filter (fun g => decide (g ∉ seg))).Perm pa := by
    have hfa := List.filter_append_perm (fun g => decide (g ∈ seg)) pa
    have hfe : (fun x : Location => !decide (x ∈ seg)) =
        (fun g : Location => decide (g ∉ seg)) := by
      funext g
      rw [decide_not]
    rw [hfe] at hfa
    exact hfa
  have hfilterseg : pa.filter (fun g => decide (g ∈ seg)) = seg :=
    filter_mem_of_sublist pa seg hnd hsegsub
  have hlen2 : (pa.filter (fun g => decide (g ∉ seg))).length = s + (pa.length - e) := by
    have h3 := hsplit.length_eq
    rw [List.length_append, hfilterseg, hseglen] at h3
    omega
  have hpoollen : pool.length = s + (pa.length - e) := by
    rw [hpool, hpoolperm.length_eq, hlen2]
  have htake : pool.take (s + (pa.length - e)) = pool :=
    List.take_of_length_le (le_of_eq hpoollen)
  rw [htake] at hperm1
  rw [hfilterseg] at hsplit
  exact hperm1.trans ((hpoolperm.append_left seg).trans hsplit)

theorem orderedCrossover_perm (pa pb : Chrom) (seed : List Nat) (c1 c2 : Chrom)
    (hnd : pa.Nodup) (hperm : pa.Perm pb)
    (h : orderedCrossover pa pb seed = .ok (c1, c2)) :
    c1.Perm pa ∧ c2.Perm pb := by
  unfold orderedCrossover at h
  cases hs : sampleRange pa.length 2 seed with
  | error e => rw [hs] at h; simp [Bind.bind, Except.bind] at h
  | ok idxs =>
    rw [hs] at h
    simp only [Bind.bind, Except.bind] at h
    obtain ⟨-, hlen, -, hbnd⟩ := sampleRange_ok _ _ _ _ hs
    have ha : idxs.getD 0 0 < pa.length := hbnd _ (getD_mem idxs 0 0 (by omega))
    have hb : idxs.getD 1 0 < pa.length := hbnd _ (getD_mem idxs 1 0 (by omega))
    have hse : min (idxs.getD 0 0) (idxs.getD 1 0) ≤ max (idxs.getD 0 0) (idxs.getD 1 0) :=
      min_le_max
    have he : max (idxs.getD 0 0) (idxs.getD 1 0) ≤ pa.length := le_of_lt (max_lt ha hb)
    cases ho1 : oxChild pa pb (min (idxs.getD 0 0) (idxs.getD 1 0))
        (max (idxs.getD 0 0) (idxs.getD 1 0)) with
    | none => rw [ho1] at h; simp at h
    | some d1 =>
      cases ho2 : oxChild pb pa (min (idxs.getD 0 0) (idxs.getD 1 0))
          (max (idxs.getD 0 0) (idxs.getD 1 0)) with
      | none => rw [ho1, ho2] at h; simp at h
      | some d2 =>
        rw [ho1, ho2] at h
        simp only [Except.ok.injEq, Prod.mk.injEq] at h
        obtain ⟨h1, h2⟩ := h
        subst h1
        subst h2
        have hndb : pb.Nodup := (hperm.nodup_iff).1 hnd
        have heb : max (idxs.getD 0 0) (idxs.getD 1 0) ≤ pb.length := by
          rw [← hperm.length_eq]
          exact he
        exact ⟨oxChild_perm pa pb _ _ _ hnd hperm.symm hse he ho1,
          oxChild_perm pb pa _ _ _ hndb hperm hse heb ho2⟩

/-! ### Helper lemmas: selection, offspring and the generation step -/

theorem tournamentPick_ok_mem (inst : GAInst) (pop : List Chrom) (seed : List Nat)
    (w : Chrom) (h : tournamentPick inst pop seed = .ok w) : w ∈ pop := by
  unfold tournamentPick at h
  cases hs : sampleRange pop.length 5 seed with
  | error e => rw [hs] at h; simp [Bind.bind, Except.bind] at h
  | ok idxs =>
    rw [hs] at h
    simp only [Bind.bind, Except.bind] at h
    obtain ⟨-, -, -, hbnd⟩ := sampleRange_ok _ _ _ _ hs
    cases hm : pyMinBy (chromFitness inst) (idxs.map (fun i => pop.getD i [])) with
    | none => rw [hm] at h; simp at h
    | some w' =>
      rw [hm] at h
      simp only [Except.ok.injEq] at h
      subst h
      have hmem := pyMinBy_mem _ _ _ hm
      obtain ⟨i, hi, rfl⟩ := List.mem_map.1 hmem
      exact getD_mem pop i [] (hbnd i hi)

theorem selGo_ok (inst : GAInst) (pop : List Chrom) :
    ∀ (k : Nat) (seeds : List (List Nat)) (ws : List Chrom),
      selGo inst pop seeds k = .ok ws → ws.length = k ∧ ∀ w ∈ ws, w ∈ pop := by
  intro k
  induction k with
  | zero =>
    intro seeds ws h
    simp only [selGo, Except.ok.injEq] at h
    subst h
    exact ⟨rfl, by simp⟩
  | succ k ih =>
    intro seeds ws h
    simp only [selGo, Bind.bind, Except.bind] at h
    cases ht : tournamentPick inst pop (seeds.headD []) with
    | error e => rw [ht] at h; simp at h
    | ok w =>
      rw [ht] at h
      cases hr : selGo inst pop seeds.tail k with
      | error e => rw [hr] at h; simp at h
      | ok rest =>
        rw [hr] at h
        simp only [Except.ok.injEq] at h
        subst h
        obtain ⟨ih1, ih2⟩ := ih seeds.tail rest hr
        refine ⟨by simp [ih1], ?_⟩
        intro v hv
        rcases List.mem_cons.1 hv with h' | h'
        · rw [h']; exact tournamentPick_ok_mem inst pop _ w ht
        · exact ih2 v h'

theorem selection_ok (inst : GAInst) (pop : List Chrom) (seeds : List (List Nat))
    (parents : List Chrom) (h : selection inst pop seeds = .ok parents) :
    parents.length = inst.population_size ∧ ∀ w ∈ parents, w ∈ pop :=
  selGo_ok inst pop inst.population_size seeds parents h

theorem pairChildren_ok_perm (p1 p2 c1 c2 : Chrom) (pr : PairRand)
    (hnd1 : p1.Nodup) (hpp : p1.Perm p2)
    (h : pairChildren p1 p2 pr = .ok (c1, c2)) : c1.Perm p1 ∧ c2.Perm p2 := by
  unfold pairChildren at h
  by_cases hdo : pr.doCross
  · rw [if_pos hdo] at h
    exact orderedCrossover_perm p1 p2 _ c1 c2 hnd1 hpp h
  · rw [if_neg hdo] at h
    simp only [Except.ok.injEq, Prod.mk.injEq] at h
    obtain ⟨h1, h2⟩ := h
    subst h1
    subst h2
    exact ⟨List.Perm.refl p1, List.Perm.refl p2⟩

theorem camGo_ok_length :
    ∀ (prs : List PairRand) (parents off : List Chrom),
      camGo prs parents = .ok off → off.length = 2 * ((parents.length + 1) / 2) := by
  intro prs parents
  induction prs, parents using camGo.induct with
  | case1 prs =>
    intro off h
    simp only [camGo, Except.ok.injEq] at h
    subst h
    rfl
  | case2 prs p1 =>
    intro off h
    simp only [camGo, Bind.bind, Except.bind] at h
    cases hc : pairChildren p1 p1 (prs.headD default) with
    | error e => rw [hc] at h; simp at h
    | ok cs =>
      rw [hc] at h
      simp only [Except.ok.injEq] at h
      subst h
      simp
  | case3 prs p1 p2 rest ih =>
    intro off h
    simp only [camGo, Bind.bind, Except.bind] at h
    cases hc : pairChildren p1 p2 (prs.headD default) with
    | error e => rw [hc] at h; simp at h
    | ok cs =>
      rw [hc] at h
      cases hr : camGo prs.tail rest with
      | error e => rw [hr] at h; simp at h
      | ok tail =>
        rw [hr] at h
        simp only [Except.ok.injEq] at h
        subst h
        have := ih tail hr
        simp only [List.length_cons, this]
        omega

theorem camGo_ok_perm (cust : List Location) (hnd : cust.Nodup) :
    ∀ (prs : List PairRand) (parents off : List Chrom),
      (∀ p ∈ parents, p.Perm cust) → camGo prs parents = .ok off →
      ∀ c ∈ off, c.Perm cust := by
  intro prs parents
  induction prs, parents using camGo.induct with
  | case1 prs =>
    intro off _ h
    simp only [camGo, Except.ok.injEq] at h
    subst h
    simp
  | case2 prs p1 =>
    intro off hpar h
    have hp1 : p1.Perm cust := hpar p1 (by simp)
    have hnd1 : p1.Nodup := (hp1.nodup_iff).2 hnd
    simp only [camGo, Bind.bind, Except.bind] at h
    cases hc : pairChildren p1 p1 (prs.headD default) with
    | error e => rw [hc] at h; simp at h
    | ok cs =>
      rw [hc] at h
      simp only [Except.ok.injEq] at h
      subst h
      obtain ⟨hc1, hc2⟩ :=
        pairChildren_ok_perm p1 p1 cs.1 cs.2 _ hnd1 (List.Perm.refl p1) hc
      intro c hcmem
      rcases List.mem_cons.1 hcmem with h' | h'
      · rw [h']
        exact ((mutate_perm _ _).trans hc1).trans hp1
      · rcases List.mem_cons.1 h' with h'' | h''
        · rw [h'']
          exact ((mutate_perm _ _).trans hc2).trans hp1
        · simp at h''
  | case3 prs p1 p2 rest ih =>
    intro off hpar h
    have hp1 : p1.Perm cust := hpar p1 (by simp)
    have hp2 : p2.Perm cust := hpar p2 (by simp)
    have hnd1 : p1.Nodup := (hp1.nodup_iff).2 hnd
    have hpp : p1.Perm p2 := hp1.trans hp2.symm
    simp only [camGo, Bind.bind, Except.bind] at h
    cases hc : pairChildren p1 p2 (prs.headD default) with
    | error e => rw [hc] at h; simp at h
    | ok cs =>
      rw [hc] at h
      cases hr : camGo prs.tail rest with
      | error e => rw [hr] at h; simp at h
      | ok tail =>
        rw [hr] at h
        simp only [Except.ok.injEq] at h
        subst h
        obtain ⟨hc1, hc2⟩ := pairChildren_ok_perm p1 p2 cs.1 cs.2 _ hnd1 hpp hc
        intro c hcmem
        rcases List.mem_cons.1 hcmem with h' | h'
        · rw [h']
          exact ((mutate_perm _ _).trans hc1).trans hp1
        · rcases List.mem_cons.1 h' with h'' | h''
          · rw [h'']
            exact ((mutate_perm _ _).trans hc2).trans hp2
          · exact ih tail (fun p hp =>
              hpar p (List.mem_cons_of_mem _ (List.mem_cons_of_mem _ hp))) hr c h''

theorem gaStep_ok (inst : GAInst) (pop : List Chrom) (gr : GenRand) (newPop : List Chrom)
    (h : gaStep inst pop gr = .ok newPop) :
    ∃ parents offspring best,
      selection inst pop gr.selSeeds = .ok parents ∧
      camGo gr.pairRand parents = .ok offspring ∧
      pyMinBy (chromFitness inst) pop = some best ∧
      newPop = best :: offspring.take (inst.population_size - 1) := by
  unfold gaStep at h
  cases hs : selection inst pop gr.selSeeds with
  | error e => rw [hs] at h; simp [Bind.bind, Except.bind] at h
  | ok parents =>
    rw [hs] at h
    simp only [Bind.bind, Except.bind] at h
    cases hc : camGo gr.pairRand parents with
    | error e => rw [hc] at h; simp at h
    | ok off =>
      rw [hc] at h
      cases hb : pyMinBy (chromFitness inst) pop with
      | none => rw [hb] at h; simp at h
      | some best =>
        rw [hb] at h
        simp only [Except.ok.injEq] at h
        exact ⟨parents, off, best, rfl, hc, rfl, h.symm⟩

theorem gaStep_min_le (inst : GAInst) (pop : List Chrom) (gr : GenRand) (newPop : List Chrom)
    (h : gaStep inst pop gr = .ok newPop) :
    minFitness (chromFitness inst) newPop ≤ minFitness (chromFitness inst) pop ∧
      newPop.headD [] = (pyMinBy (chromFitness inst) pop).getD [] := by
  obtain ⟨parents, off, best, -, -, hb, hnew⟩ := gaStep_ok inst pop gr newPop h
  subst hnew
  constructor
  · rw [minFitness_cons, pyMinBy_some_fit _ _ _ hb]
    exact min_le_left _ _
  · simp [hb]

theorem gaStep_perm (inst : GAInst) (pop : List Chrom) (gr : GenRand) (newPop : List Chrom)
    (hnd : inst.customers.Nodup)
    (hpop : ∀ g ∈ pop, g.Perm inst.customers)
    (h : gaStep inst pop gr = .ok newPop) :
    ∀ g ∈ newPop, g.Perm inst.customers := by
  obtain ⟨parents, off, best, hs, hc, hb, hnew⟩ := gaStep_ok inst pop gr newPop h
  subst hnew
  intro g hg
  rcases List.mem_cons.1 hg with h' | h'
  · rw [h']
    exact hpop best (pyMinBy_mem _ _ _ hb)
  · have hoffmem : g ∈ off := List.mem_of_mem_take h'
    have hparperm : ∀ p ∈ parents, p.Perm inst.customers :=
      fun p hp => hpop p ((selection_ok inst pop gr.selSeeds parents hs).2 p hp)
    exact camGo_ok_perm inst.customers hnd gr.pairRand parents off hparperm hc g hoffmem

theorem gaStep_length (inst : GAInst) (pop : List Chrom) (gr : GenRand) (newPop : List Chrom)
    (hpos : 1 ≤ inst.population_size)
    (h : gaStep inst pop gr = .ok newPop) :
    newPop.length = inst.population_size := by
  obtain ⟨parents, off, best, hs, hc, -, hnew⟩ := gaStep_ok inst pop gr newPop h
  have hpar := (selection_ok inst pop gr.selSeeds parents hs).1
  have hoff := camGo_ok_length gr.pairRand parents off hc
  subst hnew
  rw [List.length_cons, List.length_take, hoff, hpar]
  omega

/-! ### Helper lemmas: the main loop -/

theorem gaLoop_min_chain (inst : GAInst) :
    ∀ (fuel : Nat) (pop : List Chrom) (best : ZInf) (cnt : Nat) (grs : List GenRand)
      (pops : List (List Chrom)) (early : Bool),
      gaLoop inst fuel pop best cnt grs = .ok (pops, early) →
      List.Chain'
        (fun p q => minFitness (chromFitness inst) q ≤ minFitness (chromFitness inst) p)
        (pop :: pops) := by
  intro fuel
  induction fuel with
  | zero =>
    intro pop best cnt grs pops early h
    simp only [gaLoop, Except.ok.injEq, Prod.mk.injEq] at h
    obtain ⟨h1, -⟩ := h
    subst h1
    exact List.chain'_singleton pop
  | succ fuel ih =>
    intro pop best cnt grs pops early h
    simp only [gaLoop, Bind.bind, Except.bind] at h
    cases hstep : gaStep inst pop (grs.headD default) with
    | error e => rw [hstep] at h; simp at h
    | ok newPop =>
      rw [hstep] at h
      simp only [] at h
      by_cases hpat : inst.patience ≤
          (if chromFitness inst (newPop.headD []) < best then 0 else cnt + 1)
      · rw [if_pos hpat] at h
        simp only [Except.ok.injEq, Prod.mk.injEq] at h
        obtain ⟨h1, -⟩ := h
        subst h1
        exact List.chain'_cons.2
          ⟨(gaStep_min_le inst pop _ newPop hstep).1, List.chain'_singleton newPop⟩
      · rw [if_neg hpat] at h
        cases hrec : gaLoop inst fuel newPop
            (if chromFitness inst (newPop.headD []) < best
              then chromFitness inst (newPop.headD []) else best)
            (if chromFitness inst (newPop.headD []) < best then 0 else cnt + 1)
            grs.tail with
        | error e => rw [hrec] at h; simp at h
        | ok t =>
          rw [hrec] at h
          simp only [] at h
          simp only [Except.ok.injEq, Prod.mk.injEq] at h
          obtain ⟨h1, h2⟩ := h
          subst h1
          have hchain := ih newPop _ _ grs.tail t.1 t.2 (by rw [hrec])
          exact List.chain'_cons.2 ⟨(gaStep_min_le inst pop _ newPop hstep).1, hchain⟩

theorem gaLoop_perm_invariant (inst : GAInst) (hnd : inst.customers.Nodup) :
    ∀ (fuel : Nat) (pop : List Chrom) (best : ZInf) (cnt : Nat) (grs : List GenRand)
      (pops : List (List Chrom)) (early : Bool),
      (∀ g ∈ pop, g.Perm inst.customers) →
      gaLoop inst fuel pop best cnt grs = .ok (pops, early) →
      ∀ p ∈ pops, ∀ g ∈ p, g.Perm inst.customers := by
  intro fuel
  induction fuel with
  | zero =>
    intro pop best cnt grs pops early _ h
    simp only [gaLoop, Except.ok.injEq, Prod.mk.injEq] at h
    obtain ⟨h1, -⟩ := h
    subst h1
    simp
  | succ fuel ih =>
    intro pop best cnt grs pops early hpop h
    simp only [gaLoop, Bind.bind, Except.bind] at h
    cases hstep : gaStep inst pop (grs.headD default) with
    | error e => rw [hstep] at h; simp at h
    | ok newPop =>
      rw [hstep] at h
      simp only [] at h
      have hnew : ∀ g ∈ newPop, g.Perm inst.customers :=
        gaStep_perm inst pop _ newPop hnd hpop hstep
      by_cases hpat : inst.patience ≤
          (if chromFitness inst (newPop.headD []) < best then 0 else cnt + 1)
      · rw [if_pos hpat] at h
        simp only [Except.ok.injEq, Prod.mk.injEq] at h
        obtain ⟨h1, -⟩ := h
        subst h1
        intro p hp
        rcases List.mem_cons.1 hp with h' | h'
        · rw [h']; exact hnew
        · simp at h'
      · rw [if_neg hpat] at h
        cases hrec : gaLoop inst fuel newPop
            (if chromFitness inst (newPop.headD []) < best
              then chromFitness inst (newPop.headD []) else best)
            (if chromFitness inst (newPop.headD []) < best then 0 else cnt + 1)
            grs.tail with
        | error e => rw [hrec] at h; simp at h
        | ok t =>
          rw [hrec] at h
          simp only [] at h
          simp only [Except.ok.injEq, Prod.mk.injEq] at h
          obtain ⟨h1, -⟩ := h
          subst h1
          intro p hp
          rcases List.mem_cons.1 hp with h' | h'
          · rw [h']; exact hnew
          · exact ih newPop _ _ grs.tail t.1 t.2 hnew (by rw [hrec]) p h'

theorem gaLoop_length_invariant (inst : GAInst) (hpos : 1 ≤ inst.population_size) :
    ∀ (fuel : Nat) (pop : List Chrom) (best : ZInf) (cnt : Nat) (grs : List GenRand)
      (pops : List (List Chrom)) (early : Bool),
      gaLoop inst fuel pop best cnt grs = .ok (pops, early) →
      ∀ p ∈ pops, p.length = inst.population_size := by
  intro fuel
  induction fuel with
  | zero =>
    intro pop best cnt grs pops early h
    simp only [gaLoop, Except.ok.injEq, Prod.mk.injEq] at h
    obtain ⟨h1, -⟩ := h
    subst h1
    simp
  | succ fuel ih =>
    intro pop best cnt grs pops early h
    simp only [gaLoop, Bind.bind, Except.bind] at h
    cases hstep : gaStep inst pop (grs.headD default) with
    | error e => rw [hstep] at h; simp at h
    | ok newPop =>
      rw [hstep] at h
      simp only [] at h
      have hlen : newPop.length = inst.population_size :=
        gaStep_length inst pop _ newPop hpos hstep
      by_cases hpat : inst.patience ≤
          (if chromFitness inst (newPop.headD []) < best then 0 else cnt + 1)
      · rw [if_pos hpat] at h
        simp only [Except.ok.injEq, Prod.mk.injEq] at h
        obtain ⟨h1, -⟩ := h
        subst h1
        intro p hp
        rcases List.mem_cons.1 hp with h' | h'
        · rw [h']; exact hlen
        · simp at h'
      · rw [if_neg hpat] at h
        cases hrec : gaLoop inst fuel newPop
            (if chromFitness inst (newPop.headD []) < best
              then chromFitness inst (newPop.headD []) else best)
            (if chromFitness inst (newPop.headD []) < best then 0 else cnt + 1)
            grs.tail with
        | error e => rw [hrec] at h; simp at h
        | ok t =>
          rw [hrec] at h
          simp only [] at h
          simp only [Except.ok.injEq, Prod.mk.injEq] at h
          obtain ⟨h1, -⟩ := h
          subst h1
          intro p hp
          rcases List.mem_cons.1 hp with h' | h'
          · rw [h']; exact hlen
          · exact ih newPop _ _ grs.tail t.1 t.2 (by rw [hrec]) p h'

theorem gaLoop_stop_spec (inst : GAInst) :
    ∀ (fuel : Nat) (pop : List Chrom) (best : ZInf) (cnt : Nat) (grs : List GenRand)
      (pops : List (List Chrom)) (early : Bool),
      gaLoop inst fuel pop best cnt grs = .ok (pops, early) →
      ((early = true ∧
          stopIndex inst.patience best cnt (pops.map (headFit inst)) = some pops.length) ∨
       (early = false ∧
          stopIndex inst.patience best cnt (pops.map (headFit inst)) = none ∧
          pops.length = fuel)) ∧
      List.Chain' (fun p q => q.headD [] = (pyMinBy (chromFitness inst) p).getD [])
        (pop :: pops) := by
  intro fuel
  induction fuel with
  | zero =>
    intro pop best cnt grs pops early h
    simp only [gaLoop, Except.ok.injEq, Prod.mk.injEq] at h
    obtain ⟨h1, h2⟩ := h
    subst h1
    subst h2
    exact ⟨Or.inr ⟨rfl, rfl, rfl⟩, List.chain'_singleton pop⟩
  | succ fuel ih =>
    intro pop best cnt grs pops early h
    simp only [gaLoop, Bind.bind, Except.bind] at h
    cases hstep : gaStep inst pop (grs.headD default) with
    | error e => rw [hstep] at h; simp at h
    | ok newPop =>
      rw [hstep] at h
      simp only [] at h
      have hhead : newPop.headD [] = (pyMinBy (chromFitness inst) pop).getD [] :=
        (gaStep_min_le inst pop _ newPop hstep).2
      by_cases hpat : inst.patience ≤
          (if chromFitness inst (newPop.headD []) < best then 0 else cnt + 1)
      · rw [if_pos hpat] at h
        simp only [Except.ok.injEq, Prod.mk.injEq] at h
        obtain ⟨h1, h2⟩ := h
        subst h1
        subst h2
        refine ⟨Or.inl ⟨rfl, ?_⟩, ?_⟩
        · simp only [List.map_cons, List.map_nil, stopIndex, headFit]
          rw [if_pos hpat]
          rfl
        · exact List.chain'_cons.2 ⟨hhead, List.chain'_singleton newPop⟩
      · rw [if_neg hpat] at h
        cases hrec : gaLoop inst fuel newPop
            (if chromFitness inst (newPop.headD []) < best
              then chromFitness inst (newPop.headD []) else best)
            (if chromFitness inst (newPop.headD []) < best then 0 else cnt + 1)
            grs.tail with
        | error e => rw [hrec] at h; simp at h
        | ok t =>
          rw [hrec] at h
          simp only [] at h
          simp only [Except.ok.injEq, Prod.mk.injEq] at h
          obtain ⟨h1, h2⟩ := h
          subst h1
          subst h2
          obtain ⟨hdisj, hchain⟩ := ih newPop _ _ grs.tail t.1 t.2 (by rw [hrec])
          refine ⟨?_, List.chain'_cons.2 ⟨hhead, hchain⟩⟩
          have hunfold : stopIndex inst.patience best cnt
              ((newPop :: t.1).map (headFit inst)) =
              (stopIndex inst.patience
                (if chromFitness inst (newPop.headD []) < best
                  then chromFitness inst (newPop.headD []) else best)
                (if chromFitness inst (newPop.headD []) < best then 0 else cnt + 1)
                (t.1.map (headFit inst))).map (fun n => n + 1) := by
            simp only [List.map_cons, stopIndex, headFit]
            rw [if_neg hpat]
          rcases hdisj with ⟨he, hidx⟩ | ⟨he, hidx, hlen⟩
          · refine Or.inl ⟨he, ?_⟩
            rw [hunfold, hidx]
            simp
          · refine Or.inr ⟨he, ?_, by simp [hlen]⟩
            rw [hunfold, hidx]
            rfl

/-! ### Helper lemmas: route splitting and the stop-writing loop -/

theorem splitGo_cons (depot : Location) (cap : ℤ) (g : Location) (gs cur : List Location)
    (d : ℤ) :
    splitGo depot cap (g :: gs) cur d =
      if cap < d + g.demand then cur :: splitGo depot cap gs [depot, g] g.demand
      else splitGo depot cap gs (cur ++ [g]) (d + g.demand) := rfl

theorem splitRoutes_overweight_head (depot : Location) (cap : ℤ) (g : Location)
    (gs : List Location) (h : cap < g.demand) :
    splitRoutes depot cap (g :: gs) =
      [depot] :: splitGo depot cap gs [depot, g] g.demand := by
  unfold splitRoutes
  rw [splitGo_cons, if_pos (by omega)]

theorem routeDistance_depot_only (m : DistMatrix) (depot : Location) :
    routeDistance m depot.id [depot] = distGet m (depot.id, depot.id) := by
  unfold routeDistance legsSum
  simp [List.getLast?]

theorem routeViolation_nonneg (cap : ℤ) (r : List Location) : 0 ≤ routeViolation cap r := by
  unfold routeViolation
  split_ifs with h
  · omega
  · exact le_refl 0

theorem writeStops_ids (depotId : Nat) :
    ∀ (locs : List Location) (counter : Nat) (s : Nat × Nat),
      s ∈ writeStops depotId counter locs → s.1 ≠ depotId := by
  intro locs
  induction locs with
  | nil => intro counter s hs; simp [writeStops] at hs
  | cons l ls ih =>
    intro counter s hs
    unfold writeStops at hs
    by_cases hid : l.id = depotId
    · rw [if_pos hid] at hs
      exact ih counter s hs
    · rw [if_neg hid] at hs
      rcases List.mem_cons.1 hs with h' | h'
      · rw [h']; exact hid
      · exact ih (counter + 1) s h'

theorem writeStops_length (depotId : Nat) :
    ∀ (locs : List Location) (counter : Nat),
      (writeStops depotId counter locs).length =
        (locs.filter (fun l => decide (l.id ≠ depotId))).length := by
  intro locs
  induction locs with
  | nil => intro counter; rfl
  | cons l ls ih =>
    intro counter
    unfold writeStops
    by_cases hid : l.id = depotId
    · rw [if_pos hid, List.filter_cons]
      simp only [hid, ne_eq, not_true_eq_false, decide_False, Bool.false_eq_true,
        if_false]
      exact ih counter
    · rw [if_neg hid, List.filter_cons]
      simp only [hid, ne_eq, not_false_eq_true, decide_True, if_true,
        List.length_cons]
      rw [ih (counter + 1)]

theorem splitGo_flatten_filter (depot : Location) (cap : ℤ) (q : Location → Bool)
    (hq : q depot = false) :
    ∀ (gs rest : List Location) (d : ℤ),
      ((splitGo depot cap gs (depot :: rest) d).flatten).filter q =
        rest.filter q ++ gs.filter q := by
  intro gs
  induction gs with
  | nil =>
    intro rest d
    unfold splitGo
    by_cases hlen : 1 < (depot :: rest).length
    · rw [if_pos hlen]
      simp [List.filter_cons, hq]
    · rw [if_neg hlen]
      have : rest = [] := by
        cases rest with
        | nil => rfl
        | cons a as => simp at hlen
      subst this
      simp
  | cons g gs ih =>
    intro rest d
    rw [splitGo_cons]
    by_cases hcap : cap < d + g.demand
    · rw [if_pos hcap]
      have ihg := ih [g] g.demand
      simp only [List.flatten_cons, List.filter_append, List.filter_cons, hq,
        Bool.false_eq_true, if_false] at ihg ⊢
      rw [ihg]
      by_cases hqg : q g = true
      · simp [hqg]
      · simp [hqg]
    · rw [if_neg hcap]
      have heq : (depot :: rest) ++ [g] = depot :: (rest ++ [g]) := rfl
      rw [heq, ih (rest ++ [g]) (d + g.demand), List.filter_append,
        List.filter_cons, List.append_assoc]
      by_cases hqg : q g = true
      · simp [hqg]
      · simp [hqg]

theorem splitRoutes_flatten_filter (depot : Location) (cap : ℤ) (genes : List Location)
    (q : Location → Bool) (hq : q depot = false) :
    ((splitRoutes depot cap genes).flatten).filter q = genes.filter q := by
  have h := splitGo_flatten_filter depot cap q hq genes [] 0
  simpa [splitRoutes] using h

theorem filter_length_lt_of_mem {p : Location → Bool} :
    ∀ (l : List Location) (a : Location), a ∈ l → p a = false →
      (l.filter p).length < l.length := by
  intro l
  induction l with
  | nil => intro a ha; simp at ha
  | cons x xs ih =>
    intro a ha hpa
    rw [List.filter_cons]
    rcases List.mem_cons.1 ha with h' | h'
    · subst h'
      rw [hpa]
      simp only [Bool.false_eq_true, if_false, List.length_cons]
      exact Nat.lt_succ_of_le (List.length_filter_le p xs)
    · by_cases hx : p x = true
      · simp only [hx, if_true, List.length_cons]
        exact Nat.succ_lt_succ (ih a h' hpa)
      · simp only [hx, Bool.false_eq_true, if_false, List.length_cons]
        exact Nat.lt_succ_of_lt (ih a h' hpa)

/-! ### Claim theorems -/

/-- C1: on a cluster with exactly one customer the chromosome permutation has
    size 1, and `ordered_crossover` then calls
    `random.sample(range(1), 2)`, which raises
    `ValueError: Sample larger than population or is negative` for every RNG
    stream — so whenever the crossover coin fires (probability 0.9 per pair),
    the GA run aborts and the dispatch job ends in FAILURE instead of creating
    the one Task the claim (and spec boundary property 12) promises. -/
theorem C1_crossover_size_one_errors (pa pb : Chrom) (seed : List Nat)
    (h : pa.length < 2) :
    orderedCrossover pa pb seed =
      .error "Sample larger than population or is negative" := by
  unfold orderedCrossover sampleRange
  rw [if_pos (by omega)]
  rfl

/-- C1 witness: the crossover failure evaluated on a concrete one-gene parent. -/
theorem C1_crossover_size_one_errors_witness :
    orderedCrossover [locA] [locA] [] =
      .error "Sample larger than population or is negative" :=
  C1_crossover_size_one_errors [locA] [locA] [] (by decide)

/-- C2 counterexample: on a pair absent from the distance matrix the code's
    lookup (`dict.get` with default `float('inf')`) silently returns infinity
    — it does not fail — while the specification's loud lookup
    (`specDistLookup`, modelled from the spec) errors; the fitness evaluation
    completes normally with an infinite total distance. -/
theorem C2_counterexample :
    distGet [] (0, 1) = ⊤ ∧
    specDistLookup [] (0, 1) = .error "InternalError: distance matrix cache miss" ∧
    (evalChromosome [] locD 10 [locA]).total_distance = ⊤ := by
  refine ⟨rfl, rfl, by decide⟩

/-- C2 amended: a missing id pair makes `calculate_fitness` silently substitute
    `float('inf')` (the `.get` default) for the distance and continue; the
    loud `InternalError` failure the spec demands never happens (that failure
    is what the spec-modelled `specDistLookup` would do instead). -/
theorem C2_missing_pair_defaults_to_top (m : DistMatrix) (p : Nat × Nat)
    (h : m.lookup p = none) :
    distGet m p = ⊤ ∧
    specDistLookup m p = .error "InternalError: distance matrix cache miss" := by
  unfold distGet specDistLookup
  rw [h]
  exact ⟨rfl, rfl⟩

/-- C2 witness: the amended claim at the empty matrix. -/
theorem C2_missing_pair_defaults_to_top_witness :
    distGet [] (0, 1) = ⊤ ∧
    specDistLookup [] (0, 1) = .error "InternalError: distance matrix cache miss" :=
  C2_missing_pair_defaults_to_top [] (0, 1) rfl

/-- C3 counterexample: a concrete run (population 5, patience 1) in which a
    generation-1 mutation produces an offspring strictly better than the
    elite.  The run stops early after generation 3, but the stagnation
    recurrence fed with each generation's population minimum (the claim's
    "current-generation best = minimum fitness over that generation's full new
    population") reaches patience already at generation 2: the loop's check
    reads `population[0]` (the previous generation's best), not the population
    minimum, so the claim's iff is false. -/
theorem C3_counterexample :
    gaRun instC initSeedsC grsC = .ok (runC.1, true) ∧
    stopIndex instC.patience ⊤ 0 (runC.1.map (minFitness (chromFitness instC))) ≠
      some runC.1.length := by
  exact ⟨rfl, by decide⟩

/-- C3 amended: the main loop terminates before the generation limit iff the
    stagnation counter driven by the fitness of `population[0]` — the elite,
    which equals the minimum-fitness member of the PREVIOUS generation's
    population, so offspring improvements are only seen one generation later —
    reaches `patience`, and it stops at exactly that generation; each executed
    generation's position-0 chromosome is the previous population's first
    minimum. -/
theorem C3_early_stop_reads_previous_best (inst : GAInst)
    (initSeeds : List (List Nat)) (grs : List GenRand)
    (pops : List (List Chrom)) (early : Bool)
    (h : gaRun inst initSeeds grs = .ok (pops, early)) :
    stopBehaviour inst (initPopulation inst initSeeds) pops early :=
  gaLoop_stop_spec inst inst.generations (initPopulation inst initSeeds) ⊤ 0 grs
    pops early h

/-- C3 witness: the amended early-stop characterisation on the concrete run. -/
theorem C3_early_stop_reads_previous_best_witness :
    stopBehaviour instC (initPopulation instC initSeedsC) runC.1 true :=
  C3_early_stop_reads_previous_best instC initSeedsC grsC runC.1 true rfl

/-- C4 counterexample: a dispatch job with one vehicle, no orders and a known
    depot has `K = min(1, 0) = 0`, but the job does not return SUCCESS with
    `total_tasks_created = 0`: the earlier `if not vehicles or not orders or
    not depot` guard raises first and the job ends in FAILURE. -/
theorem C4_counterexample :
    dispatchGuard [⟨1, 10⟩] [] (some locD) =
      .failure "Invalid data: Vehicles, orders, or depot not found." ∧
    min ([(⟨1, 10⟩ : Vehicle)]).length ([] : List Order).length = 0 ∧
    dispatchGuard [⟨1, 10⟩] [] (some locD) ≠ .complete 0 := by
  refine ⟨rfl, rfl, by decide⟩

/-- C4 amended: `K = min(#vehicles, #orders) = 0` forces one of the fetched
    lists to be empty, so the job always hits the invalid-data guard and ends
    in FAILURE; the `num_clusters == 0` early return (SUCCESS with zero tasks)
    is unreachable. -/
theorem C4_zero_clusters_means_failure (vehicles : List Vehicle) (orders : List Order)
    (depot : Option Location)
    (h : min vehicles.length orders.length = 0) :
    dispatchGuard vehicles orders depot =
      .failure "Invalid data: Vehicles, orders, or depot not found." := by
  rcases Nat.min_eq_zero_iff.1 h with h0 | h0
  · have hv : vehicles = [] := List.length_eq_zero.1 h0
    subst hv
    rfl
  · have ho : orders = [] := List.length_eq_zero.1 h0
    subst ho
    unfold dispatchGuard
    rw [if_pos (by simp)]

/-- C4 witness: the amended claim at one vehicle, zero orders, known depot. -/
theorem C4_zero_clusters_means_failure_witness :
    dispatchGuard [⟨1, 10⟩] [] (some locD) =
      .failure "Invalid data: Vehicles, orders, or depot not found." :=
  C4_zero_clusters_means_failure [⟨1, 10⟩] [] (some locD) (by decide)

/-- C5 counterexample: a chromosome whose only route is overweight and whose
    edges are missing from the matrix has `total_distance = ∞`, so
    `fitness = ∞ + 1000 · violation = ∞ = total_distance` although
    `capacity_violation = 10 ≠ 0`: the claimed "fitness = total_distance iff
    capacity_violation = 0" fails in the infinite-distance case the claim
    explicitly includes. -/
theorem C5_counterexample :
    (evalChromosome [] locD 10 [locBig]).fitness =
      (evalChromosome [] locD 10 [locBig]).total_distance ∧
    (evalChromosome [] locD 10 [locBig]).capacity_violation ≠ 0 ∧
    (evalChromosome [] locD 10 [locBig]).total_distance = ⊤ := by
  refine ⟨by decide, by decide, by decide⟩

/-- C5 amended: `fitness = total_distance + 1000 · capacity_violation` with
    `capacity_violation ≥ 0`, hence `fitness ≥ total_distance`; and when
    `total_distance` is finite, `fitness = total_distance` iff
    `capacity_violation = 0` (with an infinite total distance the two are
    equal regardless of the violation). -/
theorem C5_fitness_formula (m : DistMatrix) (depot : Location) (cap : ℤ)
    (genes : Chrom) :
    (evalChromosome m depot cap genes).fitness =
      (evalChromosome m depot cap genes).total_distance +
        ((1000 * (evalChromosome m depot cap genes).capacity_violation : ℤ) : ZInf) ∧
    0 ≤ (evalChromosome m depot cap genes).capacity_violation ∧
    (evalChromosome m depot cap genes).total_distance ≤
      (evalChromosome m depot cap genes).fitness ∧
    ((evalChromosome m depot cap genes).total_distance ≠ ⊤ →
      ((evalChromosome m depot cap genes).fitness =
          (evalChromosome m depot cap genes).total_distance ↔
        (evalChromosome m depot cap genes).capacity_violation = 0)) := by
  have hfit : (evalChromosome m depot cap genes).fitness =
      (evalChromosome m depot cap genes).total_distance +
        (((evalChromosome m depot cap genes).capacity_violation * 1000 : ℤ) : ZInf) := rfl
  have hcv : 0 ≤ (evalChromosome m depot cap genes).capacity_violation := by
    show 0 ≤ ((splitRoutes depot cap genes).map (routeViolation cap)).sum
    apply List.sum_nonneg
    intro x hx
    obtain ⟨r, -, rfl⟩ := List.mem_map.1 hx
    exact routeViolation_nonneg cap r
  have hc1000 : (0 : ℤ) ≤ (evalChromosome m depot cap genes).capacity_violation * 1000 :=
    mul_nonneg hcv (by norm_num)
  have hle : (evalChromosome m depot cap genes).total_distance ≤
      (evalChromosome m depot cap genes).fitness := by
    rw [hfit]
    apply le_add_of_nonneg_right
    exact_mod_cast hc1000
  refine ⟨by rw [hfit, mul_comm], hcv, hle, ?_⟩
  intro htop
  obtain ⟨t, ht⟩ := WithTop.ne_top_iff_exists.1 htop
  constructor
  · intro heq
    rw [hfit, ← ht] at heq
    have hz : t + (evalChromosome m depot cap genes).capacity_violation * 1000 = t := by
      exact_mod_cast heq
    omega
  · intro hcv0
    rw [hfit, hcv0]
    simp

/-- C5 witness: the amended formula at a concrete overweight chromosome. -/
theorem C5_fitness_formula_witness :
    0 ≤ (evalChromosome [] locD 10 [locBig]).capacity_violation ∧
    (evalChromosome [] locD 10 [locBig]).total_distance ≤
      (evalChromosome [] locD 10 [locBig]).fitness :=
  ⟨(C5_fitness_formula [] locD 10 [locBig]).2.1,
    (C5_fitness_formula [] locD 10 [locBig]).2.2.1⟩

/-- C6: elitism is monotone — along every run's trace the population minimum
    fitness never increases from one generation to the next, because the
    previous generation's first minimum-fitness chromosome is placed (by
    reference, its genes unchanged) at position 0 of the new population and
    re-evaluating its fitness from the same genes gives the same value
    (fitness is a pure function of the genes, the depot, the capacity and the
    distance matrix in this embedding). -/
theorem C6_elitism_min_monotone (inst : GAInst) (initSeeds : List (List Nat))
    (grs : List GenRand) (pops : List (List Chrom)) (early : Bool)
    (h : gaRun inst initSeeds grs = .ok (pops, early)) :
    minChain inst (initPopulation inst initSeeds) pops :=
  gaLoop_min_chain inst inst.generations (initPopulation inst initSeeds) ⊤ 0 grs
    pops early h

/-- C6 witness: the elitism chain on the concrete run. -/
theorem C6_elitism_min_monotone_witness :
    minChain instC (initPopulation instC initSeedsC) runC.1 :=
  C6_elitism_min_monotone instC initSeedsC grsC runC.1 true rfl

/-- C7: when the cluster's customers are pairwise distinct (and the depot is
    not one of them), every chromosome of every population of a successful GA
    run — the initial one included — is a permutation of the customers, with
    the depot never appearing: random shuffles establish the invariant and
    ordered crossover, cloning and swap mutation preserve it. -/
theorem C7_population_permutation (inst : GAInst)
    (hnd : inst.customers.Nodup) (hdep : inst.depot ∉ inst.customers)
    (initSeeds : List (List Nat)) (grs : List GenRand)
    (pops : List (List Chrom)) (early : Bool)
    (h : gaRun inst initSeeds grs = .ok (pops, early)) :
    permInvariant inst (initPopulation inst initSeeds :: pops) := by
  have hinit : ∀ g ∈ initPopulation inst initSeeds, g.Perm inst.customers :=
    initPopulation_perm inst initSeeds
  have hall : ∀ p ∈ pops, ∀ g ∈ p, g.Perm inst.customers :=
    gaLoop_perm_invariant inst hnd inst.generations (initPopulation inst initSeeds)
      ⊤ 0 grs pops early hinit h
  intro p hp g hg
  have hperm : g.Perm inst.customers := by
    rcases List.mem_cons.1 hp with h' | h'
    · rw [h'] at hg
      exact hinit g hg
    · exact hall p h' g hg
  exact ⟨hperm, fun hmem => hdep (hperm.subset hmem)⟩

/-- C7 witness: the permutation invariant on the concrete run. -/
theorem C7_population_permutation_witness :
    permInvariant instC (initPopulation instC initSeedsC :: runC.1) :=
  C7_population_permutation instC (by decide) (by decide) initSeedsC grsC runC.1
    true rfl

/-- C8: when a customer shares the depot's id, the stop-writing loop of
    `run_dispatch_task` (which skips any location whose id equals the depot's)
    records no TaskStop for that customer, the number of stops is strictly
    below the number of genes, and the distance matrix — keyed by id pairs —
    cannot distinguish that customer's entries from the depot's. -/
theorem C8_depot_id_collision (m : DistMatrix) (depot : Location) (cap : ℤ)
    (genes : List Location) (c : Location) (hc : c ∈ genes)
    (hid : c.id = depot.id) :
    (∀ s ∈ taskStops depot.id (splitRoutes depot cap genes), s.1 ≠ c.id) ∧
    (taskStops depot.id (splitRoutes depot cap genes)).length < genes.length ∧
    (∀ (locs : List Location) (dists : List (List (Option ℤ))) (t : Nat),
      distGet (buildMatrix locs dists) (c.id, t) =
        distGet (buildMatrix locs dists) (depot.id, t) ∧
      distGet (buildMatrix locs dists) (t, c.id) =
        distGet (buildMatrix locs dists) (t, depot.id)) := by
  refine ⟨?_, ?_, ?_⟩
  · intro s hs
    rw [hid]
    exact writeStops_ids depot.id _ 1 s hs
  · unfold taskStops
    rw [writeStops_length,
      splitRoutes_flatten_filter depot cap genes _ (by simp)]
    exact filter_length_lt_of_mem genes c hc (by simp [hid])
  · intro locs dists t
    rw [hid]
    exact ⟨rfl, rfl⟩

/-- C8 witness: a concrete solve in which the single customer carries the
    depot's id. -/
theorem C8_depot_id_collision_witness :
    (∀ s ∈ taskStops locD.id (splitRoutes locD 10 [⟨0, 3, 3, 1⟩]),
      s.1 ≠ (⟨0, 3, 3, 1⟩ : Location).id) ∧
    (taskStops locD.id (splitRoutes locD 10 [⟨0, 3, 3, 1⟩])).length <
      ([(⟨0, 3, 3, 1⟩ : Location)]).length ∧
    (∀ (locs : List Location) (dists : List (List (Option ℤ))) (t : Nat),
      distGet (buildMatrix locs dists) ((⟨0, 3, 3, 1⟩ : Location).id, t) =
        distGet (buildMatrix locs dists) (locD.id, t) ∧
      distGet (buildMatrix locs dists) (t, (⟨0, 3, 3, 1⟩ : Location).id) =
        distGet (buildMatrix locs dists) (t, locD.id)) :=
  C8_depot_id_collision [] locD 10 [⟨0, 3, 3, 1⟩] ⟨0, 3, 3, 1⟩ (by decide) rfl

/-- C9: when the first gene's demand alone exceeds the capacity, the split
    flushes the initial `[depot]`-only current route, so the decoded routes
    begin with the customer-free sub-route `[depot]`, which contributes
    `d(depot, depot)` to the total distance and nothing to the capacity
    violation (the depot's demand being within capacity). -/
theorem C9_overweight_first_gene (m : DistMatrix) (depot : Location) (cap : ℤ)
    (g : Location) (gs : List Location) (hcap : cap < g.demand)
    (hdep : depot.demand ≤ cap) :
    (evalChromosome m depot cap (g :: gs)).routes.head? = some [depot] ∧
    (evalChromosome m depot cap (g :: gs)).total_distance =
      distGet m (depot.id, depot.id) +
        ((evalChromosome m depot cap (g :: gs)).routes.tail.map
          (routeDistance m depot.id)).sum ∧
    (evalChromosome m depot cap (g :: gs)).capacity_violation =
      ((evalChromosome m depot cap (g :: gs)).routes.tail.map
        (routeViolation cap)).sum := by
  have hroutes : (evalChromosome m depot cap (g :: gs)).routes =
      [depot] :: splitGo depot cap gs [depot, g] g.demand :=
    splitRoutes_overweight_head depot cap g gs hcap
  have hviol : routeViolation cap [depot] = 0 := by
    unfold routeViolation routeDemand
    simp only [List.map_cons, List.map_nil, List.sum_cons, List.sum_nil, add_zero]
    rw [if_neg (not_lt.2 hdep)]
  refine ⟨?_, ?_, ?_⟩
  · rw [hroutes]
    rfl
  · show ((evalChromosome m depot cap (g :: gs)).routes.map
        (routeDistance m depot.id)).sum = _
    rw [hroutes, List.map_cons, List.sum_cons, routeDistance_depot_only,
      List.tail_cons]
  · show ((evalChromosome m depot cap (g :: gs)).routes.map
        (routeViolation cap)).sum = _
    rw [hroutes, List.map_cons, List.sum_cons, hviol, zero_add, List.tail_cons]

/-- C9 witness: the degenerate split at a concrete overweight first gene. -/
theorem C9_overweight_first_gene_witness :
    (evalChromosome [] locD 10 [locBig]).routes.head? = some [locD] ∧
    (evalChromosome [] locD 10 [locBig]).total_distance =
      distGet [] (locD.id, locD.id) +
        ((evalChromosome [] locD 10 [locBig]).routes.tail.map
          (routeDistance [] locD.id)).sum ∧
    (evalChromosome [] locD 10 [locBig]).capacity_violation =
      ((evalChromosome [] locD 10 [locBig]).routes.tail.map
        (routeViolation 10)).sum :=
  C9_overweight_first_gene [] locD 10 locBig [] (by decide) (by decide)

/-- C10: with `population_size` at least the tournament size (5), a successful
    run's populations all contain exactly `population_size` chromosomes: the
    initial population by construction, and every generation because the new
    population is the previous best plus the first `population_size − 1`
    offspring, `crossover_and_mutate` producing `2 · ⌈population_size / 2⌉ ≥
    population_size` offspring (excess discarded). -/
theorem C10_population_size (inst : GAInst) (h5 : 5 ≤ inst.population_size)
    (initSeeds : List (List Nat)) (grs : List GenRand)
    (pops : List (List Chrom)) (early : Bool)
    (h : gaRun inst initSeeds grs = .ok (pops, early)) :
    sizeInvariant inst (initPopulation inst initSeeds :: pops) := by
  intro p hp
  rcases List.mem_cons.1 hp with h' | h'
  · rw [h']
    exact initPopulation_length inst initSeeds
  · exact gaLoop_length_invariant inst (by omega) inst.generations
      (initPopulation inst initSeeds) ⊤ 0 grs pops early h p h'

/-- C10 witness: the size invariant on the concrete run (population 5). -/
theorem C10_population_size_witness :
    sizeInvariant instC (initPopulation instC initSeedsC :: runC.1) :=
  C10_population_size instC (by decide) initSeedsC grsC runC.1 true rfl
